import Mathlib

/-!
# Sliding-window sample (package slidingwindow)

A shallow embedding of `slidingwindow.go`: a reservoir of timestamped int64
observations, bounded by `reservoirSize`, from which every accessor first
evicts the observations older than `window`.

Modelling decisions.

* `time.Time` is an instant on the UTC time line, counted in nanoseconds
  (`Time`, an integer).  `realClock.Now` returns `time.Now().UTC()`, which
  carries no monotonic reading, and the test clocks return `time.Unix(..)`, so
  `Time.Sub` always compares wall-clock instants.
* `time.Duration` is a signed 64-bit nanosecond count; `Time.Sub` saturates at
  `minDuration` / `maxDuration` as the Go library documents.
* The clock `s.c` is an interface whose `Now()` may answer differently at each
  call.  Every function that calls `s.c.Now()` takes the reading it obtains as
  an argument; `Update`, which reads the clock twice, takes two readings.
* The mutex `s.mu` has no effect on a sequential run and is left out.
* A mutating method returns the new `Sample`; a method with a result returns
  the pair `(result, new sample)`.
-/

namespace slidingwindow

/-- An instant (Go `time.Time`), in nanoseconds on the UTC time line. -/
abbrev Time := Int

/-- A span of time (Go `time.Duration`), in nanoseconds. -/
abbrev Duration := Int

/-- The smallest `time.Duration`, `-1 << 63`. -/
def minDuration : Duration := -9223372036854775808

/-- The largest `time.Duration`, `1<<63 - 1`. -/
def maxDuration : Duration := 9223372036854775807

/-- Go `t.Sub(u)`: the duration `t - u`; when it does not fit a `Duration` the
minimum (or maximum) duration is returned. -/
def Time.Sub (t u : Time) : Duration :=
  if t - u < minDuration then minDuration
  else if maxDuration < t - u then maxDuration
  else t - u

/-- One stored observation: `type sample struct { v int64; t time.Time }`. -/
structure sample where
  v : Int
  t : Time
deriving DecidableEq, Repr

/-- The sliding-window sample: `type Sample struct`, without the mutex and
without the clock (whose readings are arguments of the methods). -/
structure Sample where
  values : List sample
  reservoirSize : Int
  window : Duration
deriving DecidableEq, Repr

/-- `NewSample(reservoirSize, window)`: an empty reservoir. -/
def NewSample (reservoirSize : Int) (window : Duration) : Sample :=
  { values := [], reservoirSize := reservoirSize, window := window }

/-- `isInWindow`: `current.Sub(metric) <= s.window`. -/
def Sample.isInWindow (s : Sample) (current metric : Time) : Bool :=
  decide (Time.Sub current metric ≤ s.window)

/-- The negation of `isInWindow` on a stored observation: the observation is
older than the window at reading `now`. -/
def Sample.stale (s : Sample) (now : Time) (o : sample) : Bool :=
  !s.isInWindow now o.t

/-- The `for i, existing := range s.values` loop of `slideWindow`, entered at
index `i` with the elements from `i` on still to visit; the result is the final
`preserved`: `s.values[i:]` at the first `i` in the window (then `break`),
empty when the range is exhausted. -/
def Sample.slideWindow.loop (s : Sample) (currentTime : Time) :
    Nat → List sample → List sample
  | _, [] => []
  | i, existing :: rest =>
    if s.isInWindow currentTime existing.t then s.values.drop i
    else Sample.slideWindow.loop s currentTime (i + 1) rest

/-- `slideWindow`, with `currentTime` the reading of `s.c.Now()`. -/
def Sample.slideWindow (s : Sample) (currentTime : Time) : Sample :=
  match s.values.head? with
  | none => s
  | some first =>
    if s.isInWindow currentTime first.t then s
    else { s with values := Sample.slideWindow.loop s currentTime 0 s.values }

/-- `Clear`: `s.values = []sample{}`. -/
def Sample.Clear (s : Sample) : Sample :=
  { s with values := [] }

/-- `Size`: evict, then `len(s.values)`. -/
def Sample.Size (s : Sample) (now : Time) : Int × Sample :=
  let s1 := s.slideWindow now
  ((s1.values.length : Int), s1)

/-- `Count`: `int64(s.Size())`. -/
def Sample.Count (s : Sample) (now : Time) : Int × Sample :=
  s.Size now

/-- `Values`: evict, then copy out the `v` field of every stored observation. -/
def Sample.Values (s : Sample) (now : Time) : List Int × Sample :=
  let s1 := s.slideWindow now
  (s1.values.map (fun o => o.v), s1)

/-- Modelled from the spec: the summary object of the external statistics layer
(go-metrics `SampleSnapshot`, not part of this repository), "an immutable
point-in-time summary (count + values)". -/
structure SampleSnapshot where
  count : Int
  values : List Int
deriving DecidableEq, Repr

/-- Modelled from the spec: `metrics.NewSampleSnapshot` of the external
statistics layer (not part of this repository), "a function to build an
immutable snapshot object from a count and a values sequence". -/
def NewSampleSnapshot (count : Int) (values : List Int) : SampleSnapshot :=
  { count := count, values := values }

/-- `Snapshot`: `v := s.Values()`, then
`metrics.NewSampleSnapshot(int64(len(v)), v)`. -/
def Sample.Snapshot (s : Sample) (now : Time) : SampleSnapshot × Sample :=
  let r := s.Values now
  (NewSampleSnapshot (r.1.length : Int) r.1, r.2)

/-- `Update(v)`: `nowSlide` is the reading taken inside `slideWindow`,
`nowStamp` the reading taken for the stored timestamp (not taken when the
value is dropped). -/
def Sample.Update (s : Sample) (v : Int) (nowSlide nowStamp : Time) : Sample :=
  let s1 := s.slideWindow nowSlide
  if (s1.values.length : Int) ≥ s1.reservoirSize then s1
  else { s1 with values := s1.values ++ [{ v := v, t := nowStamp }] }

/-- One call on a sample, with the clock readings the call obtains. -/
inductive Op where
  | Update (v : Int) (nowSlide nowStamp : Time)
  | Clear
  | Size (now : Time)
  | Count (now : Time)
  | Values (now : Time)
  | Snapshot (now : Time)
deriving DecidableEq, Repr

/-- The sample after one call. -/
def step (s : Sample) : Op → Sample
  | .Update v nowSlide nowStamp => s.Update v nowSlide nowStamp
  | .Clear => s.Clear
  | .Size now => (s.Size now).2
  | .Count now => (s.Count now).2
  | .Values now => (s.Values now).2
  | .Snapshot now => (s.Snapshot now).2

/-- The sample after a sequence of calls, first call first. -/
def run (s : Sample) (ops : List Op) : Sample :=
  ops.foldl step s

/-- The clock readings one call really takes on sample `s`, in order: an
`Update` whose value is dropped returns before its second `Now()`. -/
def readingsOf (s : Sample) : Op → List Time
  | .Update _ nowSlide nowStamp =>
    if ((s.slideWindow nowSlide).values.length : Int) ≥ s.reservoirSize then [nowSlide]
    else [nowSlide, nowStamp]
  | .Clear => []
  | .Size now => [now]
  | .Count now => [now]
  | .Values now => [now]
  | .Snapshot now => [now]

/-- All clock readings taken along a sequence of calls, in order. -/
def trace (s : Sample) : List Op → List Time
  | [] => []
  | op :: ops => readingsOf s op ++ trace (step s op) ops

/-- The values handed to `Update`, in call order. -/
def updatesOf : List Op → List Int
  | [] => []
  | .Update v _ _ :: ops => v :: updatesOf ops
  | _ :: ops => updatesOf ops

/-- Timestamps in non-decreasing order: for positions `i < j`,
`values[i].t ≤ values[j].t`. -/
def Chronological (l : List sample) : Prop :=
  l.Pairwise (fun a b => a.t ≤ b.t)

instance (l : List sample) : Decidable (Chronological l) := by
  unfold Chronological; infer_instance

/-- The calls of a burst of updates: one `Update(v)` per entry
`(v, nowSlide, nowStamp)`, in order. -/
def burstOps (b : List (Int × Time × Time)) : List Op :=
  b.map (fun x => Op.Update x.1 x.2.1 x.2.2)

/-! ### The same methods with Go's run-time checks made explicit

An index expression `a[i]` panics unless `i < len(a)` and a slice expression
`a[i:]` panics unless `i <= len(a)`.  In the definitions below a panic is the
result `none`. -/

/-- Go `a[i:]`: the elements from index `i` on; a panic when `i > len(a)`. -/
def sliceFrom (a : List sample) (i : Nat) : Option (List sample) :=
  if i ≤ a.length then some (a.drop i) else none

/-- The loop of `slideWindow` with the bound of `s.values[i:]` checked. -/
def Sample.slideWindow.loopChecked (s : Sample) (currentTime : Time) :
    Nat → List sample → Option (List sample)
  | _, [] => some []
  | i, existing :: rest =>
    if s.isInWindow currentTime existing.t then sliceFrom s.values i
    else Sample.slideWindow.loopChecked s currentTime (i + 1) rest

/-- `slideWindow` with its accesses checked: `s.values[0]` is read only when
`len(s.values) == 0` is false (`||` evaluates its right operand only then). -/
def Sample.slideWindowChecked (s : Sample) (currentTime : Time) : Option Sample :=
  if s.values.length = 0 then some s
  else
    match s.values[0]? with
    | none => none
    | some first =>
      if s.isInWindow currentTime first.t then some s
      else
        (Sample.slideWindow.loopChecked s currentTime 0 s.values).map
          (fun preserved => { s with values := preserved })

/-- The copy loop of `Values`, `for i, v := range s.values { v2[i] = v.v }`,
entered at index `i`, with the bound of the store `v2[i]` checked. -/
def Sample.Values.fillChecked : Nat → List sample → List Int → Option (List Int)
  | _, [], v2 => some v2
  | i, v :: rest, v2 =>
    if i < v2.length then Sample.Values.fillChecked (i + 1) rest (v2.set i v.v)
    else none

/-- `Values` with its accesses checked; `make([]int64, n)` is `n` zeroes. -/
def Sample.ValuesChecked (s : Sample) (now : Time) : Option (List Int × Sample) :=
  match s.slideWindowChecked now with
  | none => none
  | some s1 =>
    match Sample.Values.fillChecked 0 s1.values (List.replicate s1.values.length 0) with
    | none => none
    | some v2 => some (v2, s1)

/-- `Size` with its accesses checked. -/
def Sample.SizeChecked (s : Sample) (now : Time) : Option (Int × Sample) :=
  match s.slideWindowChecked now with
  | none => none
  | some s1 => some ((s1.values.length : Int), s1)

/-- `Count` with its accesses checked. -/
def Sample.CountChecked (s : Sample) (now : Time) : Option (Int × Sample) :=
  s.SizeChecked now

/-- `Snapshot` with its accesses checked. -/
def Sample.SnapshotChecked (s : Sample) (now : Time) : Option (SampleSnapshot × Sample) :=
  match s.ValuesChecked now with
  | none => none
  | some r => some (NewSampleSnapshot (r.1.length : Int) r.1, r.2)

/-- `Update` with its accesses checked. -/
def Sample.UpdateChecked (s : Sample) (v : Int) (nowSlide nowStamp : Time) : Option Sample :=
  match s.slideWindowChecked nowSlide with
  | none => none
  | some s1 =>
    if (s1.values.length : Int) ≥ s1.reservoirSize then some s1
    else some { s1 with values := s1.values ++ [{ v := v, t := nowStamp }] }

/-- `Clear` with its accesses checked: it has none. -/
def Sample.ClearChecked (s : Sample) : Option Sample :=
  some { s with values := [] }

/-- The specification's wording of eviction: the suffix of the buffer that
starts at the first observation within the window (`now - observedAt <= window`),
that is, the buffer without its longest prefix of out-of-window observations;
empty when no observation is within the window. -/
def suffixFromFirstInWindow (window : Duration) (now : Time) : List sample → List sample
  | [] => []
  | o :: rest =>
    if Time.Sub now o.t ≤ window then o :: rest
    else suffixFromFirstInWindow window now rest

/-- Two `Update` calls under a clock that steps backwards: value 1 is stored
at second 10, then value 2 at second 5. -/
def backwardsOps : List Op :=
  [.Update 1 10000000000 10000000000, .Update 2 5000000000 5000000000]

/-- The buffer of the test "slides a non-empty list of values where some of the
values are preserved": values 1, 2, 3 stored at seconds 0, 1, 2, reservoir size
3, window one second. -/
def testBuffer : Sample :=
  { values := [⟨1, 0⟩, ⟨2, 1000000000⟩, ⟨3, 2000000000⟩],
    reservoirSize := 3, window := 1000000000 }

/-! ## The repository's test tables, replayed on the embedding -/

theorem test_slideWindow_empty :
    ((Sample.mk [] 0 1000000000).slideWindow 0).values = [] := by decide

theorem test_slideWindow_first_in_window :
    (((Sample.mk [⟨1, 0⟩] 0 1000000000).slideWindow 0).Values 0).1 = [1] := by decide

theorem test_slideWindow_some_preserved :
    (((Sample.mk [⟨1, 0⟩, ⟨2, 1000000000⟩, ⟨3, 2000000000⟩] 3 1000000000).slideWindow
      2000000000).Values 2000000000).1 = [2, 3] := by decide

theorem test_slideWindow_none_preserved :
    (((Sample.mk [⟨1, 0⟩, ⟨2, 0⟩, ⟨3, 0⟩] 0 1000000000).slideWindow
      2000000000).Values 2000000000).1 = [] := by decide

theorem test_Update_empty :
    (((Sample.mk [] 3 0).Update 1 0 0).Values 0).1 = [1] := by decide

theorem test_Update_full :
    (((Sample.mk [⟨1, 0⟩, ⟨2, 0⟩, ⟨3, 0⟩] 3 0).Update 4 0 0).Values 0).1 = [1, 2, 3] := by
  decide

/-! ## Durations -/

theorem Time.Sub_mono_left {t t1 : Time} (u : Time) (h : t ≤ t1) :
    Time.Sub t u ≤ Time.Sub t1 u := by
  simp only [Time.Sub, minDuration, maxDuration, Time, Duration] at *
  split_ifs <;> omega

theorem Time.Sub_anti_right {u u1 : Time} (t : Time) (h : u ≤ u1) :
    Time.Sub t u1 ≤ Time.Sub t u := by
  simp only [Time.Sub, minDuration, maxDuration, Time, Duration] at *
  split_ifs <;> omega

/-- Inside the range of a `Duration`, `Sub` is plain subtraction. -/
theorem Time.Sub_exact {t u : Time} (h1 : minDuration ≤ t - u) (h2 : t - u ≤ maxDuration) :
    Time.Sub t u = t - u := by
  simp only [Time.Sub, minDuration, maxDuration, Time, Duration] at *
  split_ifs <;> omega

theorem Time.Sub_nonneg {t u : Time} (h : u ≤ t) : 0 ≤ Time.Sub t u := by
  simp only [Time.Sub, minDuration, maxDuration, Time, Duration] at *
  split_ifs <;> omega

/-! ## Eviction as `dropWhile` -/

theorem Sample.slideWindow.loop_eq (s : Sample) (now : Time) :
    ∀ (l : List sample) (i : Nat), s.values.drop i = l →
      Sample.slideWindow.loop s now i l = l.dropWhile (s.stale now) := by
  intro l
  induction l with
  | nil => intro i _; simp [Sample.slideWindow.loop]
  | cons a rest ih =>
    intro i h
    by_cases hw : s.isInWindow now a.t = true
    · simp [Sample.slideWindow.loop, List.dropWhile, Sample.stale, hw, h]
    · have hrest : s.values.drop (i + 1) = rest := by
        have hd : s.values.drop (i + 1) = (s.values.drop i).drop 1 := by
          simp [List.drop_drop, Nat.add_comm]
        rw [hd, h]; rfl
      simp only [Bool.not_eq_true] at hw
      simp [Sample.slideWindow.loop, List.dropWhile, Sample.stale, hw, ih (i + 1) hrest]

theorem Sample.slideWindow_values (s : Sample) (now : Time) :
    (s.slideWindow now).values = s.values.dropWhile (s.stale now) := by
  unfold Sample.slideWindow
  cases hv : s.values with
  | nil => simp [hv]
  | cons a rest =>
    simp only [List.head?_cons]
    by_cases hw : s.isInWindow now a.t = true
    · simp [hw, hv, List.dropWhile, Sample.stale]
    · simp only [Bool.not_eq_true] at hw
      have := Sample.slideWindow.loop_eq s now s.values 0 (by simp)
      simp only [hw, hv] at this ⊢
      simp [this]

@[simp] theorem Sample.slideWindow_reservoirSize (s : Sample) (now : Time) :
    (s.slideWindow now).reservoirSize = s.reservoirSize := by
  unfold Sample.slideWindow
  split
  · rfl
  · split <;> rfl

@[simp] theorem Sample.slideWindow_window (s : Sample) (now : Time) :
    (s.slideWindow now).window = s.window := by
  unfold Sample.slideWindow
  split
  · rfl
  · split <;> rfl

@[simp] theorem Sample.stale_eq_false (s : Sample) (now : Time) (o : sample) :
    s.stale now o = false ↔ Time.Sub now o.t ≤ s.window := by
  simp [Sample.stale, Sample.isInWindow]

@[simp] theorem Sample.stale_eq_true (s : Sample) (now : Time) (o : sample) :
    s.stale now o = true ↔ s.window < Time.Sub now o.t := by
  simp [Sample.stale, Sample.isInWindow]

/-- In a chronological buffer nothing behind a fresh observation is stale. -/
theorem Chronological.fresh_tail {a : sample} {rest : List sample}
    (h : Chronological (a :: rest)) (s : Sample) (now : Time)
    (ha : Time.Sub now a.t ≤ s.window) :
    ∀ b ∈ rest, Time.Sub now b.t ≤ s.window := by
  intro b hb
  have hab : a.t ≤ b.t := (List.pairwise_cons.mp h).1 b hb
  exact le_trans (Time.Sub_anti_right now hab) ha

theorem Chronological.tail {a : sample} {rest : List sample}
    (h : Chronological (a :: rest)) : Chronological rest :=
  (List.pairwise_cons.mp h).2

/-- On a chronological buffer, dropping the stale front is the same as keeping
the fresh observations. -/
theorem dropWhile_stale_eq_filter (s : Sample) (now : Time) :
    ∀ l : List sample, Chronological l →
      l.dropWhile (s.stale now) = l.filter (fun o => decide (Time.Sub now o.t ≤ s.window)) := by
  intro l
  induction l with
  | nil => intro _; rfl
  | cons a rest ih =>
    intro h
    by_cases ha : Time.Sub now a.t ≤ s.window
    · have hall := h.fresh_tail s now ha
      have hst : s.stale now a = false := (s.stale_eq_false now a).mpr ha
      have hf : rest.filter (fun o => decide (Time.Sub now o.t ≤ s.window)) = rest := by
        apply List.filter_eq_self.mpr
        intro b hb
        simpa using hall b hb
      simp [List.dropWhile, hst, ha, hf]
    · have hst : s.stale now a = true := (s.stale_eq_true now a).mpr (not_le.mp ha)
      simp [List.dropWhile, hst, ha, ih h.tail]

/-! ## What eviction does to a sample -/

theorem Sample.slideWindow_eq (s : Sample) (now : Time) :
    s.slideWindow now = { s with values := s.values.dropWhile (s.stale now) } := by
  have h1 := s.slideWindow_values now
  have h2 := s.slideWindow_reservoirSize now
  have h3 := s.slideWindow_window now
  cases hs : s.slideWindow now with
  | mk vals r w =>
    rw [hs] at h1 h2 h3
    simp only at h1 h2 h3
    simp [h1, h2, h3]

theorem Sample.slideWindow_sublist (s : Sample) (now : Time) :
    (s.slideWindow now).values.Sublist s.values := by
  rw [Sample.slideWindow_values]
  exact (List.dropWhile_suffix _).sublist

theorem Sample.slideWindow_length_le (s : Sample) (now : Time) :
    (s.slideWindow now).values.length ≤ s.values.length :=
  (s.slideWindow_sublist now).length_le

theorem Sample.stale_slideWindow (s : Sample) (now now1 : Time) :
    (s.slideWindow now).stale now1 = s.stale now1 := by
  funext o
  simp [Sample.stale, Sample.isInWindow]

theorem dropWhile_idem {α : Type} (p : α → Bool) :
    ∀ l : List α, (l.dropWhile p).dropWhile p = l.dropWhile p := by
  intro l
  induction l with
  | nil => rfl
  | cons a rest ih =>
    by_cases ha : p a = true
    · simp [List.dropWhile, ha, ih]
    · simp only [Bool.not_eq_true] at ha
      simp [List.dropWhile, ha]

theorem Sample.slideWindow_idem (s : Sample) (now : Time) :
    (s.slideWindow now).slideWindow now = s.slideWindow now := by
  rw [Sample.slideWindow_eq (s.slideWindow now) now, Sample.stale_slideWindow,
    Sample.slideWindow_eq s now]
  simp [dropWhile_idem]

theorem mem_dropWhile_of_false {α : Type} (p : α → Bool) (x : α) (hx : p x = false) :
    ∀ l : List α, x ∈ l → x ∈ l.dropWhile p := by
  intro l
  induction l with
  | nil => intro h; exact h
  | cons a rest ih =>
    intro h
    by_cases ha : p a = true
    · have hne : x ≠ a := by
        intro e; rw [e, ha] at hx; exact Bool.noConfusion hx
      have hr : x ∈ rest := by
        rcases List.mem_cons.mp h with e | e
        · exact absurd e hne
        · exact e
      simp only [List.dropWhile, ha]
      exact ih hr
    · simp only [Bool.not_eq_true] at ha
      simp only [List.dropWhile, ha]
      exact h

theorem filter_dropWhile_not {α : Type} (p : α → Bool) :
    ∀ l : List α, (l.dropWhile (fun x => !p x)).filter p = l.filter p := by
  intro l
  induction l with
  | nil => rfl
  | cons a rest ih =>
    by_cases ha : p a = true
    · simp [List.dropWhile, ha]
    · simp only [Bool.not_eq_true] at ha
      simp [List.dropWhile, ha, ih]

@[simp] theorem Sample.Update_reservoirSize (s : Sample) (v : Int) (n1 n2 : Time) :
    (s.Update v n1 n2).reservoirSize = s.reservoirSize := by
  unfold Sample.Update
  simp only
  split <;> simp

@[simp] theorem Sample.Update_window (s : Sample) (v : Int) (n1 n2 : Time) :
    (s.Update v n1 n2).window = s.window := by
  unfold Sample.Update
  simp only
  split <;> simp

@[simp] theorem step_reservoirSize (s : Sample) (op : Op) :
    (step s op).reservoirSize = s.reservoirSize := by
  cases op <;> simp [step, Sample.Clear, Sample.Size, Sample.Count, Sample.Values,
    Sample.Snapshot]

@[simp] theorem step_window (s : Sample) (op : Op) :
    (step s op).window = s.window := by
  cases op <;> simp [step, Sample.Clear, Sample.Size, Sample.Count, Sample.Values,
    Sample.Snapshot]

theorem run_cons (s : Sample) (op : Op) (ops : List Op) :
    run s (op :: ops) = run (step s op) ops := rfl

@[simp] theorem run_reservoirSize (s : Sample) (ops : List Op) :
    (run s ops).reservoirSize = s.reservoirSize := by
  induction ops generalizing s with
  | nil => rfl
  | cons op ops ih => rw [run_cons, ih, step_reservoirSize]

@[simp] theorem run_window (s : Sample) (ops : List Op) :
    (run s ops).window = s.window := by
  induction ops generalizing s with
  | nil => rfl
  | cons op ops ih => rw [run_cons, ih, step_window]

/-- Every call keeps `len(values) <= reservoirSize`. -/
theorem step_bounded (s : Sample) (op : Op)
    (h : (s.values.length : Int) ≤ s.reservoirSize) :
    ((step s op).values.length : Int) ≤ (step s op).reservoirSize := by
  have hs : ∀ now, ((s.slideWindow now).values.length : Int) ≤ s.reservoirSize := by
    intro now
    have := s.slideWindow_length_le now
    omega
  cases op with
  | Update v n1 n2 =>
    simp only [step, Sample.Update]
    split
    · simpa using hs n1
    · rename_i hlt
      simp only [Sample.slideWindow_reservoirSize, ge_iff_le, not_le] at hlt
      simp only [List.length_append, List.length_singleton, Sample.slideWindow_reservoirSize]
      push_cast
      omega
  | Clear =>
    simp only [step, Sample.Clear, List.length_nil]
    have : (0 : Int) ≤ (s.values.length : Int) := Int.natCast_nonneg _
    push_cast
    omega
  | Size now => simpa [step, Sample.Size] using hs now
  | Count now => simpa [step, Sample.Count, Sample.Size] using hs now
  | Values now => simpa [step, Sample.Values] using hs now
  | Snapshot now => simpa [step, Sample.Snapshot, Sample.Values] using hs now

theorem run_bounded (ops : List Op) :
    ∀ s : Sample, (s.values.length : Int) ≤ s.reservoirSize →
      ((run s ops).values.length : Int) ≤ s.reservoirSize := by
  induction ops with
  | nil => intro s h; exact h
  | cons op ops ih =>
    intro s h
    rw [run_cons]
    have := ih (step s op) (step_bounded s op h)
    simpa using this

/-! ## Runs -/

theorem Sample.Update_values (s : Sample) (v : Int) (n1 n2 : Time) :
    (s.Update v n1 n2).values
      = if ((s.slideWindow n1).values.length : Int) ≥ s.reservoirSize
        then (s.slideWindow n1).values
        else (s.slideWindow n1).values ++ [{ v := v, t := n2 }] := by
  unfold Sample.Update
  simp only [Sample.slideWindow_reservoirSize]
  split <;> rfl

/-- A call other than `Update` only evicts or clears. -/
theorem step_values_sublist (s : Sample) (op : Op) (h : ∀ v n1 n2, op ≠ .Update v n1 n2) :
    (step s op).values.Sublist s.values := by
  cases op with
  | Update v n1 n2 => exact absurd rfl (h v n1 n2)
  | Clear => simp [step, Sample.Clear]
  | Size now => exact s.slideWindow_sublist now
  | Count now => exact s.slideWindow_sublist now
  | Values now => exact s.slideWindow_sublist now
  | Snapshot now => exact s.slideWindow_sublist now

theorem updatesOf_cons (op : Op) (ops : List Op) :
    updatesOf (op :: ops) = updatesOf [op] ++ updatesOf ops := by
  cases op <;> simp [updatesOf]

/-- After one call the stored values are a subsequence of the values stored
before followed by the value the call handed to `Update`, if any. -/
theorem step_map_sublist (s : Sample) (op : Op) :
    ((step s op).values.map (fun o => o.v)).Sublist
      (s.values.map (fun o => o.v) ++ updatesOf [op]) := by
  cases op with
  | Update v n1 n2 =>
    simp only [step, Sample.Update_values, updatesOf]
    have hs := (s.slideWindow_sublist n1).map (fun o => o.v)
    split
    · exact List.sublist_append_of_sublist_left hs
    · rw [List.map_append]
      exact hs.append (List.Sublist.refl _)
  | Clear => simp [step, Sample.Clear]
  | Size now =>
    exact List.sublist_append_of_sublist_left
      ((s.slideWindow_sublist now).map (fun o => o.v))
  | Count now =>
    exact List.sublist_append_of_sublist_left
      ((s.slideWindow_sublist now).map (fun o => o.v))
  | Values now =>
    exact List.sublist_append_of_sublist_left
      ((s.slideWindow_sublist now).map (fun o => o.v))
  | Snapshot now =>
    exact List.sublist_append_of_sublist_left
      ((s.slideWindow_sublist now).map (fun o => o.v))

theorem run_map_sublist (ops : List Op) :
    ∀ s : Sample, ((run s ops).values.map (fun o => o.v)).Sublist
      (s.values.map (fun o => o.v) ++ updatesOf ops) := by
  induction ops with
  | nil => intro s; simp [run, updatesOf]
  | cons op ops ih =>
    intro s
    rw [run_cons, updatesOf_cons, ← List.append_assoc]
    exact (ih (step s op)).trans ((step_map_sublist s op).append (List.Sublist.refl _))

theorem trace_take_initial (ops : List Op) :
    ∀ (s : Sample) (k : Nat), trace s (ops.take k) <+: trace s ops := by
  induction ops with
  | nil => intro s k; simp [trace]
  | cons op ops ih =>
    intro s k
    cases k with
    | zero => simp [trace]
    | succ k =>
      simp only [List.take_succ_cons, trace]
      exact (List.prefix_append_right_inj _).mpr (ih (step s op) k)

/-- The invariant behind chronological order: the buffer is chronological and
no stored timestamp is later than a reading still to come. -/
theorem step_chronological (s : Sample) (op : Op) (rest : List Time)
    (hc : Chronological s.values)
    (hle : ∀ o ∈ s.values, ∀ r ∈ readingsOf s op ++ rest, o.t ≤ r)
    (hp : (readingsOf s op ++ rest).Pairwise (fun a b => a ≤ b)) :
    Chronological (step s op).values
      ∧ ∀ o ∈ (step s op).values, ∀ r ∈ rest, o.t ≤ r := by
  have hsub : ∀ l : List sample, l.Sublist s.values →
      Chronological l ∧ ∀ o ∈ l, ∀ r ∈ rest, o.t ≤ r := by
    intro l hl
    exact ⟨List.Pairwise.sublist hl hc,
      fun o ho r hr => hle o (hl.subset ho) r (List.mem_append_right _ hr)⟩
  by_cases hu : ∀ v n1 n2, op ≠ .Update v n1 n2
  · exact hsub _ (step_values_sublist s op hu)
  · push_neg at hu
    obtain ⟨v, n1, n2, rfl⟩ := hu
    simp only [step, Sample.Update_values]
    simp only [readingsOf] at hle hp
    split
    · exact hsub _ (s.slideWindow_sublist n1)
    · rename_i hfull
      rw [if_neg hfull] at hle hp
      have hs := hsub _ (s.slideWindow_sublist n1)
      have hcross := (List.pairwise_append.mp hp).2.2
      constructor
      · unfold Chronological
        rw [List.pairwise_append]
        refine ⟨hs.1, List.pairwise_singleton _ _, ?_⟩
        intro a ha b hb
        rw [List.mem_singleton] at hb
        subst hb
        exact hle a ((s.slideWindow_sublist n1).subset ha) n2 (by simp)
      · intro o ho r hr
        rcases List.mem_append.mp ho with h1 | h1
        · exact hs.2 o h1 r hr
        · rw [List.mem_singleton] at h1
          subst h1
          exact hcross n2 (by simp) r hr

theorem run_chronological (ops : List Op) :
    ∀ s : Sample, Chronological s.values →
      (∀ o ∈ s.values, ∀ r ∈ trace s ops, o.t ≤ r) →
      (trace s ops).Pairwise (fun a b => a ≤ b) →
      Chronological (run s ops).values := by
  induction ops with
  | nil => intro s hc _ _; exact hc
  | cons op ops ih =>
    intro s hc hle hp
    simp only [trace] at hle hp
    have hstep := step_chronological s op (trace (step s op) ops) hc hle hp
    rw [run_cons]
    exact ih (step s op) hstep.1 hstep.2 (List.pairwise_append.mp hp).2.1

/-! ## A burst inside one window -/

/-- When every stored observation is within the window, eviction changes
nothing. -/
theorem Sample.slideWindow_fresh (s : Sample) (now : Time)
    (h : ∀ o ∈ s.values, Time.Sub now o.t ≤ s.window) : s.slideWindow now = s := by
  have hd : s.values.dropWhile (s.stale now) = s.values := by
    cases hv : s.values with
    | nil => rfl
    | cons a rest =>
      have ha : s.stale now a = false :=
        (s.stale_eq_false now a).mpr (h a (by simp [hv]))
      simp only [List.dropWhile, ha]
  rw [Sample.slideWindow_eq, hd]

theorem updatesOf_burstOps (b : List (Int × Time × Time)) :
    updatesOf (burstOps b) = b.map (fun x => x.1) := by
  induction b with
  | nil => rfl
  | cons x b ih =>
    simp only [burstOps, List.map_cons, updatesOf] at ih ⊢
    rw [ih]

theorem clear_not_mem_burstOps (b : List (Int × Time × Time)) : Op.Clear ∉ burstOps b := by
  simp [burstOps]

/-- Bounds on the readings of a non-decreasing trace that ends with `now`. -/
theorem readings_between (tr : List Time) (now : Time)
    (h : (tr ++ [now]).Pairwise (fun a b => a ≤ b)) :
    ∀ r ∈ tr, tr.headD now ≤ r ∧ r ≤ now := by
  intro r hr
  have hnow : r ≤ now := (List.pairwise_append.mp h).2.2 r hr now (by simp)
  refine ⟨?_, hnow⟩
  cases tr with
  | nil => simp at hr
  | cons f rest =>
    simp only [List.headD_cons]
    rcases List.mem_cons.mp hr with e | e
    · rw [e]
    · have h1 := (List.pairwise_append.mp h).1
      exact (List.pairwise_cons.mp h1).1 r e

/-- While every reading lies between `first` and `now`, and `now` is no more
than the window after `first`, nothing is evicted: the buffer is the first
`reservoirSize` values of what was stored and handed to `Update`. -/
theorem run_burst (first now : Time) (ops : List Op) :
    ∀ s : Sample, Op.Clear ∉ ops →
      Time.Sub now first ≤ s.window →
      (∀ o ∈ s.values, first ≤ o.t) →
      (∀ r ∈ trace s ops, first ≤ r ∧ r ≤ now) →
      (s.values.length : Int) ≤ s.reservoirSize →
      (run s ops).values.map (fun o => o.v)
          = (s.values.map (fun o => o.v) ++ updatesOf ops).take s.reservoirSize.toNat
        ∧ ∀ o ∈ (run s ops).values, first ≤ o.t := by
  induction ops with
  | nil =>
    intro s _ _ hfirst _ hlen
    refine ⟨?_, hfirst⟩
    simp only [run, List.foldl_nil, updatesOf, List.append_nil]
    rw [List.take_of_length_le]
    simp only [List.length_map]
    omega
  | cons op ops ih =>
    intro s hclear hwin hfirst htr hlen
    have hclear1 : Op.Clear ∉ ops := fun hm => hclear (List.mem_cons_of_mem _ hm)
    have hne : op ≠ Op.Clear := fun e => hclear (by simp [e])
    simp only [trace] at htr
    -- a reading between `first` and `now` evicts nothing
    have hkeep : ∀ r, first ≤ r → r ≤ now → s.slideWindow r = s := by
      intro r _ hr2
      apply s.slideWindow_fresh
      intro o ho
      exact le_trans (Time.Sub_mono_left o.t hr2)
        (le_trans (Time.Sub_anti_right now (hfirst o ho)) hwin)
    have hread : ∀ r, r ∈ readingsOf s op → step s op = s → updatesOf [op] = [] →
        (run s (op :: ops)).values.map (fun o => o.v)
          = (s.values.map (fun o => o.v) ++ updatesOf (op :: ops)).take s.reservoirSize.toNat
        ∧ ∀ o ∈ (run s (op :: ops)).values, first ≤ o.t := by
      intro r _ hstep hup
      rw [run_cons, updatesOf_cons, hup, List.nil_append, hstep]
      rw [hstep] at htr
      exact ih s hclear1 hwin hfirst
        (fun r hr => htr r (List.mem_append_right _ hr)) hlen
    cases op with
    | Clear => exact absurd rfl hne
    | Size r =>
      have hr := htr r (by simp [readingsOf])
      exact hread r (by simp [readingsOf]) (by simp [step, Sample.Size, hkeep r hr.1 hr.2]) rfl
    | Count r =>
      have hr := htr r (by simp [readingsOf])
      exact hread r (by simp [readingsOf])
        (by simp [step, Sample.Count, Sample.Size, hkeep r hr.1 hr.2]) rfl
    | Values r =>
      have hr := htr r (by simp [readingsOf])
      exact hread r (by simp [readingsOf]) (by simp [step, Sample.Values, hkeep r hr.1 hr.2]) rfl
    | Snapshot r =>
      have hr := htr r (by simp [readingsOf])
      exact hread r (by simp [readingsOf])
        (by simp [step, Sample.Snapshot, Sample.Values, hkeep r hr.1 hr.2]) rfl
    | Update v n1 n2 =>
      have hn1 : first ≤ n1 ∧ n1 ≤ now := by
        apply htr n1
        simp only [readingsOf]
        split <;> simp
      have hs1 : s.slideWindow n1 = s := hkeep n1 hn1.1 hn1.2
      by_cases hfull : (s.values.length : Int) ≥ s.reservoirSize
      · have hstep : step s (Op.Update v n1 n2) = s := by
          simp only [step, Sample.Update, hs1]
          rw [if_pos hfull]
        rw [run_cons, hstep]
        rw [hstep] at htr
        have hih := ih s hclear1 hwin hfirst
          (fun r hr => htr r (List.mem_append_right _ hr)) hlen
        refine ⟨?_, hih.2⟩
        rw [hih.1]
        have hl : (s.values.map (fun o => o.v)).length = s.reservoirSize.toNat := by
          simp only [List.length_map]
          omega
        rw [List.take_left' hl, List.take_left' hl]
      · have hstep : step s (Op.Update v n1 n2)
            = { s with values := s.values ++ [{ v := v, t := n2 }] } := by
          simp only [step, Sample.Update, hs1]
          rw [if_neg hfull]
        have hn2 : first ≤ n2 := by
          apply (htr n2 _).1
          simp only [readingsOf, hs1]
          rw [if_neg hfull]
          simp
        rw [run_cons, hstep]
        rw [hstep] at htr
        have hih := ih { s with values := s.values ++ [{ v := v, t := n2 }] } hclear1 hwin
          (by
            intro o ho
            rcases List.mem_append.mp ho with h1 | h1
            · exact hfirst o h1
            · rw [List.mem_singleton] at h1
              rw [h1]
              exact hn2)
          (fun r hr => htr r (List.mem_append_right _ hr))
          (by
            simp only [List.length_append, List.length_singleton]
            push_cast
            omega)
        refine ⟨?_, hih.2⟩
        rw [hih.1]
        simp [updatesOf, List.append_assoc]

/-! ## C1 -/

/-- C1: on a buffer whose timestamps are in chronological order, `slideWindow`
at reading `now` leaves exactly the observations with `now.Sub(t) <= window`, in
their original order; `Values()` at that reading returns exactly their values,
and an observation of the buffer survives if and only if it is within the
window. -/
theorem C1_slideWindow_exact (s : Sample) (now : Time) (h : Chronological s.values) :
    (s.slideWindow now).values
        = s.values.filter (fun o => decide (Time.Sub now o.t ≤ s.window))
      ∧ (s.Values now).1
        = (s.values.filter (fun o => decide (Time.Sub now o.t ≤ s.window))).map (fun o => o.v)
      ∧ ∀ o, o ∈ (s.slideWindow now).values ↔ o ∈ s.values ∧ Time.Sub now o.t ≤ s.window := by
  have hv : (s.slideWindow now).values
      = s.values.filter (fun o => decide (Time.Sub now o.t ≤ s.window)) := by
    rw [Sample.slideWindow_values, dropWhile_stale_eq_filter s now s.values h]
  refine ⟨hv, ?_, ?_⟩
  · simp only [Sample.Values, hv]
  · intro o
    rw [hv, List.mem_filter]
    simp

theorem C1_slideWindow_exact_witness :
    Chronological testBuffer.values
      ∧ ((testBuffer.slideWindow 2000000000).values
          = testBuffer.values.filter
              (fun o => decide (Time.Sub 2000000000 o.t ≤ testBuffer.window))
        ∧ (testBuffer.Values 2000000000).1
          = (testBuffer.values.filter
              (fun o => decide (Time.Sub 2000000000 o.t ≤ testBuffer.window))).map
                (fun o => o.v)
        ∧ ∀ o, o ∈ (testBuffer.slideWindow 2000000000).values
            ↔ o ∈ testBuffer.values ∧ Time.Sub 2000000000 o.t ≤ testBuffer.window) :=
  ⟨by decide, C1_slideWindow_exact testBuffer 2000000000 (by decide)⟩

/-! ## C2 -/

/-- C2: a sample created by `NewSample` with a positive reservoir size holds
at most `reservoirSize` observations after any sequence of calls under any
clock readings, so `Size()` never returns more than the reservoir size; and
every single call preserves `len(values) <= reservoirSize`. -/
theorem C2_reservoir_bound (c : Int) (w : Duration) (hc : 0 < c) (ops : List Op) :
    ((run (NewSample c w) ops).values.length : Int) ≤ c
      ∧ (∀ now, ((run (NewSample c w) ops).Size now).1 ≤ c)
      ∧ ∀ (s : Sample) (op : Op), (s.values.length : Int) ≤ s.reservoirSize →
          ((step s op).values.length : Int) ≤ (step s op).reservoirSize := by
  have h0 : ((NewSample c w).values.length : Int) ≤ (NewSample c w).reservoirSize := by
    simp only [NewSample, List.length_nil]
    push_cast
    omega
  have hrun := run_bounded ops (NewSample c w) h0
  refine ⟨hrun, ?_, step_bounded⟩
  intro now
  have := (run (NewSample c w) ops).slideWindow_length_le now
  simp only [Sample.Size]
  change ((run (NewSample c w) ops).values.length : Int) ≤ c at hrun
  omega

theorem C2_reservoir_bound_witness :
    (0 : Int) < 3
      ∧ (((run (NewSample 3 0) [.Update 1 0 0, .Update 2 0 0, .Update 3 0 0,
            .Update 4 0 0]).values.length : Int) ≤ 3
        ∧ (∀ now, ((run (NewSample 3 0) [.Update 1 0 0, .Update 2 0 0, .Update 3 0 0,
            .Update 4 0 0]).Size now).1 ≤ 3)
        ∧ ∀ (s : Sample) (op : Op), (s.values.length : Int) ≤ s.reservoirSize →
            ((step s op).values.length : Int) ≤ (step s op).reservoirSize) :=
  ⟨by decide, C2_reservoir_bound 3 0 (by decide)
    [.Update 1 0 0, .Update 2 0 0, .Update 3 0 0, .Update 4 0 0]⟩

/-! ## C3 -/

/-- C3: when the buffer evicted at the reading of `Update` already holds
`reservoirSize` observations or more, `Update(v)` leaves exactly the evicted
buffer, and `Values()` at that reading returns the same list after the `Update`
as before it (whether or not the earlier `Values()` call was really made). -/
theorem C3_Update_full (s : Sample) (v : Int) (now nowStamp : Time)
    (h : s.reservoirSize ≤ ((s.slideWindow now).values.length : Int)) :
    s.Update v now nowStamp = s.slideWindow now
      ∧ ((s.Update v now nowStamp).Values now).1 = (s.Values now).1
      ∧ (((s.Values now).2.Update v now nowStamp).Values now).1 = (s.Values now).1 := by
  have hu : s.Update v now nowStamp = s.slideWindow now := by
    unfold Sample.Update
    simp only [Sample.slideWindow_reservoirSize, ge_iff_le]
    rw [if_pos h]
  have hu2 : (s.slideWindow now).Update v now nowStamp = s.slideWindow now := by
    unfold Sample.Update
    simp only [Sample.slideWindow_reservoirSize, ge_iff_le, Sample.slideWindow_idem]
    rw [if_pos h]
  refine ⟨hu, ?_, ?_⟩
  · rw [hu]
    simp only [Sample.Values, Sample.slideWindow_idem]
  · simp only [Sample.Values, hu2, Sample.slideWindow_idem]

theorem C3_Update_full_witness :
    (Sample.mk [⟨1, 0⟩, ⟨2, 0⟩, ⟨3, 0⟩] 3 0).reservoirSize
        ≤ ((((Sample.mk [⟨1, 0⟩, ⟨2, 0⟩, ⟨3, 0⟩] 3 0).slideWindow 0).values.length : Nat) : Int)
      ∧ ((Sample.mk [⟨1, 0⟩, ⟨2, 0⟩, ⟨3, 0⟩] 3 0).Update 4 0 0
          = (Sample.mk [⟨1, 0⟩, ⟨2, 0⟩, ⟨3, 0⟩] 3 0).slideWindow 0
        ∧ (((Sample.mk [⟨1, 0⟩, ⟨2, 0⟩, ⟨3, 0⟩] 3 0).Update 4 0 0).Values 0).1
          = ((Sample.mk [⟨1, 0⟩, ⟨2, 0⟩, ⟨3, 0⟩] 3 0).Values 0).1
        ∧ ((((Sample.mk [⟨1, 0⟩, ⟨2, 0⟩, ⟨3, 0⟩] 3 0).Values 0).2.Update 4 0 0).Values 0).1
          = ((Sample.mk [⟨1, 0⟩, ⟨2, 0⟩, ⟨3, 0⟩] 3 0).Values 0).1) :=
  ⟨by decide, C3_Update_full (Sample.mk [⟨1, 0⟩, ⟨2, 0⟩, ⟨3, 0⟩] 3 0) 4 0 0 (by decide)⟩

/-! ## C4 -/

/-- C4: when the buffer evicted at the reading of `Update` holds fewer than
`reservoirSize` observations, `Update(v)` leaves the evicted buffer followed by
the single observation `(v, nowStamp)`, `nowStamp` being the clock reading taken
for the stamp; the configuration is untouched. -/
theorem C4_Update_appends (s : Sample) (v : Int) (now nowStamp : Time)
    (h : ((s.slideWindow now).values.length : Int) < s.reservoirSize) :
    s.Update v now nowStamp
      = { s with values := (s.slideWindow now).values ++ [{ v := v, t := nowStamp }] } := by
  unfold Sample.Update
  simp only [Sample.slideWindow_reservoirSize, ge_iff_le]
  rw [if_neg (not_le.mpr h)]
  rw [Sample.slideWindow_eq]

theorem C4_Update_appends_witness :
    ((((Sample.mk [] 3 0).slideWindow 0).values.length : Nat) : Int)
        < (Sample.mk [] 3 0).reservoirSize
      ∧ (Sample.mk [] 3 0).Update 1 0 0
          = { Sample.mk [] 3 0 with
              values := ((Sample.mk [] 3 0).slideWindow 0).values ++ [{ v := 1, t := 0 }] } :=
  ⟨by decide, C4_Update_appends (Sample.mk [] 3 0) 1 0 0 (by decide)⟩

/-! ## C5 -/

/-- C5: in a run that starts from `NewSample` and whose successive clock
readings never decrease, after every call (after every prefix `ops.take k` of
the run) the stored observations are in chronological order: for positions
`i < j` the timestamp at `i` is at most the timestamp at `j`. -/
theorem C5_chronological_order (c : Int) (w : Duration) (ops : List Op)
    (h : (trace (NewSample c w) ops).Pairwise (fun a b => a ≤ b)) (k : Nat) :
    Chronological (run (NewSample c w) (ops.take k)).values
      ∧ ∀ (i j : Nat) (a b : sample), i < j →
          (run (NewSample c w) (ops.take k)).values[i]? = some a →
          (run (NewSample c w) (ops.take k)).values[j]? = some b → a.t ≤ b.t := by
  have hp : (trace (NewSample c w) (ops.take k)).Pairwise (fun a b => a ≤ b) :=
    List.Pairwise.sublist (trace_take_initial ops (NewSample c w) k).sublist h
  have hc : Chronological (run (NewSample c w) (ops.take k)).values :=
    run_chronological (ops.take k) (NewSample c w) (by simp [NewSample, Chronological])
      (by simp [NewSample]) hp
  refine ⟨hc, ?_⟩
  intro i j a b hij hi hj
  obtain ⟨hi1, hi2⟩ := List.getElem?_eq_some.mp hi
  obtain ⟨hj1, hj2⟩ := List.getElem?_eq_some.mp hj
  have := List.pairwise_iff_getElem.mp hc i j hi1 hj1 hij
  rw [hi2, hj2] at this
  exact this

theorem C5_chronological_order_witness :
    (trace (NewSample 2 1000000000)
        [.Update 1 0 0, .Size 1000000000, .Update 2 2000000000 2000000000,
          .Update 3 2000000000 3000000000]).Pairwise (fun a b => a ≤ b)
      ∧ Chronological (run (NewSample 2 1000000000)
          ([Op.Update 1 0 0, .Size 1000000000, .Update 2 2000000000 2000000000,
            .Update 3 2000000000 3000000000].take 4)).values :=
  ⟨by decide,
    (C5_chronological_order 2 1000000000
      [.Update 1 0 0, .Size 1000000000, .Update 2 2000000000 2000000000,
        .Update 3 2000000000 3000000000] (by decide) 4).1⟩

/-! ## C6 -/

/-- C6: after any sequence of calls on a sample created by `NewSample`, under
any clock readings, the list `Values()` returns is a subsequence of the values
handed to `Update`, in call order. -/
theorem C6_values_subsequence (c : Int) (w : Duration) (ops : List Op) (now : Time) :
    ((run (NewSample c w) ops).Values now).1.Sublist (updatesOf ops) := by
  have h1 := run_map_sublist ops (NewSample c w)
  have h2 := ((run (NewSample c w) ops).slideWindow_sublist now).map (fun o => o.v)
  simp only [NewSample, List.map_nil, List.nil_append] at h1
  exact h2.trans h1

/-! ## C7 -/

/-- C7: eviction is idempotent at a fixed clock reading, so `Size()`,
`Values()` and `Snapshot()` called twice in a row at the same reading return the
same result, and leave the same sample, both times. -/
theorem C7_eviction_idempotent (s : Sample) (now : Time) :
    (s.slideWindow now).slideWindow now = s.slideWindow now
      ∧ (s.Size now).2.Size now = s.Size now
      ∧ (s.Values now).2.Values now = s.Values now
      ∧ (s.Snapshot now).2.Snapshot now = s.Snapshot now := by
  refine ⟨s.slideWindow_idem now, ?_, ?_, ?_⟩ <;>
    simp only [Sample.Size, Sample.Values, Sample.Snapshot, Sample.slideWindow_idem]

/-! ## C8 -/

/-- C8: the window boundary is inclusive.  For every buffer (ordered or not),
an observation with `now.Sub(t) <= window`, so also one whose age equals the
window, is still stored after `slideWindow` and its value is returned by
`Values()`; indeed the fresh observations of the evicted buffer are those of
the original buffer, with their multiplicity and order. -/
theorem C8_boundary_inclusive (s : Sample) (now : Time) (o : sample)
    (ho : o ∈ s.values) (hw : Time.Sub now o.t ≤ s.window) :
    o ∈ (s.slideWindow now).values
      ∧ o.v ∈ (s.Values now).1
      ∧ (s.slideWindow now).values.filter (fun x => s.isInWindow now x.t)
          = s.values.filter (fun x => s.isInWindow now x.t) := by
  have hm : o ∈ (s.slideWindow now).values := by
    rw [Sample.slideWindow_values]
    exact mem_dropWhile_of_false _ o ((s.stale_eq_false now o).mpr hw) _ ho
  refine ⟨hm, ?_, ?_⟩
  · simp only [Sample.Values]
    exact List.mem_map_of_mem _ hm
  · rw [Sample.slideWindow_values]
    have hst : s.stale now = fun x => !s.isInWindow now x.t := rfl
    rw [hst]
    exact filter_dropWhile_not (fun x : sample => s.isInWindow now x.t) s.values

theorem C8_boundary_inclusive_witness :
    (⟨2, 1000000000⟩ : sample) ∈ testBuffer.values
      ∧ Time.Sub 2000000000 (⟨2, 1000000000⟩ : sample).t = testBuffer.window
      ∧ ((⟨2, 1000000000⟩ : sample) ∈ (testBuffer.slideWindow 2000000000).values
        ∧ (⟨2, 1000000000⟩ : sample).v ∈ (testBuffer.Values 2000000000).1
        ∧ (testBuffer.slideWindow 2000000000).values.filter
              (fun x => testBuffer.isInWindow 2000000000 x.t)
            = testBuffer.values.filter (fun x => testBuffer.isInWindow 2000000000 x.t)) :=
  ⟨by decide, by decide,
    C8_boundary_inclusive testBuffer 2000000000 ⟨2, 1000000000⟩ (by decide) (by decide)⟩

/-! ## C9 -/

/-- C9: from any sample state, after `Clear()` the buffer is empty, `Size()`
returns 0 and `Values()` returns the empty list, at any clock reading. -/
theorem C9_Clear_empties (s : Sample) (now : Time) :
    s.Clear.values = []
      ∧ (s.Clear.Size now).1 = 0
      ∧ (s.Clear.Values now).1 = [] := by
  have h : (s.Clear.slideWindow now).values = [] := by
    rw [Sample.slideWindow_values]
    simp [Sample.Clear]
  refine ⟨rfl, ?_, ?_⟩
  · simp [Sample.Size, h]
  · simp [Sample.Values, h]

/-! ## C10 -/

/-- C10: a burst inside one window keeps the earliest arrivals.  On a sample
created by `NewSample` with reservoir size `c >= 0`, after `Update` is called
with the values of `b` in order, under clock readings that never decrease up to
the final reading `now`, and with `now` no more than `window` after the first
reading taken (`now` itself when the burst is empty), `Values()` at `now`
returns exactly the first `min(c, len)` values of the burst, in order. -/
theorem C10_burst_keeps_earliest (c : Int) (w : Duration) (b : List (Int × Time × Time))
    (now : Time) (hc : 0 ≤ c)
    (hmono : (trace (NewSample c w) (burstOps b) ++ [now]).Pairwise (fun x y => x ≤ y))
    (hwin : Time.Sub now ((trace (NewSample c w) (burstOps b)).headD now) ≤ w) :
    ((run (NewSample c w) (burstOps b)).Values now).1
      = (b.map (fun x => x.1)).take (min c (b.length : Int)).toNat := by
  have hb := readings_between _ now hmono
  have hrun := run_burst ((trace (NewSample c w) (burstOps b)).headD now) now (burstOps b)
    (NewSample c w) (clear_not_mem_burstOps b) hwin (by simp [NewSample]) hb
    (by simp only [NewSample, List.length_nil]; push_cast; omega)
  have hkeep : (run (NewSample c w) (burstOps b)).slideWindow now
      = run (NewSample c w) (burstOps b) := by
    apply Sample.slideWindow_fresh
    intro o ho
    rw [run_window]
    exact le_trans (Time.Sub_anti_right now (hrun.2 o ho)) hwin
  simp only [Sample.Values, hkeep]
  rw [hrun.1, updatesOf_burstOps]
  simp only [NewSample, List.map_nil, List.nil_append]
  by_cases hle : c ≤ (b.length : Int)
  · rw [min_eq_left hle]
  · rw [min_eq_right (le_of_not_le hle)]
    rw [List.take_of_length_le, List.take_of_length_le]
    · simp
    · simp only [List.length_map]; omega

theorem C10_burst_keeps_earliest_witness :
    (0 : Int) ≤ 3
      ∧ (trace (NewSample 3 1000000000) (burstOps [(1, 0, 0), (2, 0, 0), (3, 0, 0), (4, 0, 0)])
          ++ [1000000000]).Pairwise (fun x y => x ≤ y)
      ∧ Time.Sub 1000000000
          ((trace (NewSample 3 1000000000)
            (burstOps [(1, 0, 0), (2, 0, 0), (3, 0, 0), (4, 0, 0)])).headD 1000000000)
          ≤ 1000000000
      ∧ ((run (NewSample 3 1000000000)
            (burstOps [(1, 0, 0), (2, 0, 0), (3, 0, 0), (4, 0, 0)])).Values 1000000000).1
          = ([(1, 0, 0), (2, 0, 0), (3, 0, 0), (4, 0, 0)].map
              (fun x : Int × Time × Time => x.1)).take
              (min 3 (([(1, 0, 0), (2, 0, 0), (3, 0, 0), (4, 0, 0)] :
                List (Int × Time × Time)).length : Int)).toNat :=
  ⟨by decide, by decide, by decide,
    C10_burst_keeps_earliest 3 1000000000 [(1, 0, 0), (2, 0, 0), (3, 0, 0), (4, 0, 0)]
      1000000000 (by decide) (by decide) (by decide)⟩

/-! ## C11 -/

/-- C11: `Snapshot()` is `NewSampleSnapshot(n, vs)` with `vs` the list
`Values()` returns at the same reading and `n` its length, and leaves the sample
as `Values()` does; so the count of the snapshot is the number of values it
carries, and the snapshot of an empty sample has count 0 and no values. -/
theorem C11_Snapshot_of_Values (s : Sample) (now : Time) :
    (s.Snapshot now).1 = NewSampleSnapshot ((s.Values now).1.length : Int) (s.Values now).1
      ∧ (s.Snapshot now).2 = (s.Values now).2
      ∧ (s.Snapshot now).1.values = (s.slideWindow now).values.map (fun o => o.v)
      ∧ (s.Snapshot now).1.count = ((s.Snapshot now).1.values.length : Int)
      ∧ ∀ (r : Int) (w : Duration),
          ((Sample.mk [] r w).Snapshot now).1 = NewSampleSnapshot 0 [] := by
  refine ⟨rfl, rfl, rfl, rfl, ?_⟩
  intro r w
  rfl

/-! ## C12 -/

/-- C12: `Size()` returns the number of observations left after eviction at
the reading, which is the length of the list `Values()` returns at that reading;
`Count()` returns the same number, and all three leave the same sample. -/
theorem C12_Size_Count_Values (s : Sample) (now : Time) :
    (s.Size now).1 = ((s.slideWindow now).values.length : Int)
      ∧ (s.Size now).1 = ((s.Values now).1.length : Int)
      ∧ (s.Count now).1 = (s.Size now).1
      ∧ 0 ≤ (s.Count now).1
      ∧ (s.Size now).2 = (s.Values now).2
      ∧ (s.Count now).2 = (s.Size now).2 := by
  refine ⟨rfl, ?_, rfl, ?_, rfl, rfl⟩
  · simp [Sample.Size, Sample.Values]
  · simp [Sample.Count, Sample.Size]

/-! ## Run-time checks never fire -/

theorem Sample.slideWindow.loopChecked_eq (s : Sample) (now : Time) :
    ∀ (l : List sample) (i : Nat), i + l.length = s.values.length →
      Sample.slideWindow.loopChecked s now i l = some (Sample.slideWindow.loop s now i l) := by
  intro l
  induction l with
  | nil => intro i _; rfl
  | cons a rest ih =>
    intro i h
    simp only [List.length_cons] at h
    by_cases hw : s.isInWindow now a.t = true
    · have hi : i ≤ s.values.length := by omega
      simp [Sample.slideWindow.loopChecked, Sample.slideWindow.loop, hw, sliceFrom, hi]
    · simp only [Bool.not_eq_true] at hw
      simp only [Sample.slideWindow.loopChecked, Sample.slideWindow.loop, hw]
      exact ih (i + 1) (by omega)

theorem Sample.slideWindowChecked_eq (s : Sample) (now : Time) :
    s.slideWindowChecked now = some (s.slideWindow now) := by
  unfold Sample.slideWindowChecked Sample.slideWindow
  cases hv : s.values with
  | nil => simp
  | cons a rest =>
    have hl := Sample.slideWindow.loopChecked_eq s now s.values 0 (by simp)
    rw [hv] at hl
    by_cases hw : s.isInWindow now a.t = true
    · simp [hw]
    · simp only [Bool.not_eq_true] at hw
      simp [hw, hl]

theorem Sample.Values.fillChecked_eq :
    ∀ (rest : List sample) (done : List Int),
      Sample.Values.fillChecked done.length rest (done ++ List.replicate rest.length 0)
        = some (done ++ rest.map (fun o => o.v)) := by
  intro rest
  induction rest with
  | nil => intro done; simp [Sample.Values.fillChecked]
  | cons a rest ih =>
    intro done
    have hlt : done.length < (done ++ List.replicate (a :: rest).length 0).length := by
      simp
    have hset : (done ++ List.replicate (a :: rest).length 0).set done.length a.v
        = (done ++ [a.v]) ++ List.replicate rest.length 0 := by
      rw [List.set_append_right _ _ (le_refl _)]
      simp [List.replicate_succ]
    have hih := ih (done ++ [a.v])
    simp only [List.length_append, List.length_singleton] at hih
    simp only [Sample.Values.fillChecked, if_pos hlt, hset, hih]
    simp

theorem Sample.ValuesChecked_eq (s : Sample) (now : Time) :
    s.ValuesChecked now = some (s.Values now) := by
  have h := Sample.Values.fillChecked_eq (s.slideWindow now).values []
  simp only [List.length_nil, List.nil_append] at h
  simp only [Sample.ValuesChecked, Sample.slideWindowChecked_eq, h, Sample.Values]

/-! ## C13 -/

/-- C13: no operation changes the configuration: `slideWindow`, every single
call (`Update`, `Clear`, `Size`, `Count`, `Values`, `Snapshot`) and hence every
sequence of calls leave `reservoirSize` and `window` as they were. -/
theorem C13_configuration_frame (s : Sample) (v : Int) (now nowStamp : Time) (op : Op)
    (ops : List Op) :
    ((s.slideWindow now).reservoirSize = s.reservoirSize
        ∧ (s.slideWindow now).window = s.window)
      ∧ ((s.Update v now nowStamp).reservoirSize = s.reservoirSize
        ∧ (s.Update v now nowStamp).window = s.window)
      ∧ (s.Clear.reservoirSize = s.reservoirSize ∧ s.Clear.window = s.window)
      ∧ ((s.Size now).2.reservoirSize = s.reservoirSize ∧ (s.Size now).2.window = s.window)
      ∧ ((s.Count now).2.reservoirSize = s.reservoirSize
        ∧ (s.Count now).2.window = s.window)
      ∧ ((s.Values now).2.reservoirSize = s.reservoirSize
        ∧ (s.Values now).2.window = s.window)
      ∧ ((s.Snapshot now).2.reservoirSize = s.reservoirSize
        ∧ (s.Snapshot now).2.window = s.window)
      ∧ ((step s op).reservoirSize = s.reservoirSize ∧ (step s op).window = s.window)
      ∧ ((run s ops).reservoirSize = s.reservoirSize ∧ (run s ops).window = s.window) :=
  ⟨⟨s.slideWindow_reservoirSize now, s.slideWindow_window now⟩,
    ⟨s.Update_reservoirSize v now nowStamp, s.Update_window v now nowStamp⟩,
    ⟨rfl, rfl⟩,
    ⟨s.slideWindow_reservoirSize now, s.slideWindow_window now⟩,
    ⟨s.slideWindow_reservoirSize now, s.slideWindow_window now⟩,
    ⟨s.slideWindow_reservoirSize now, s.slideWindow_window now⟩,
    ⟨s.slideWindow_reservoirSize now, s.slideWindow_window now⟩,
    ⟨step_reservoirSize s op, step_window s op⟩,
    ⟨run_reservoirSize s ops, run_window s ops⟩⟩

/-! ## C14 -/

/-- C14: no operation fails.  For every sample (any buffer, any reservoir size,
any window), value and clock readings, each method run with Go's bounds checks
made explicit completes without a panic and gives the result of the unchecked
method; in `slideWindow` the read `s.values[0]` and the slice `s.values[i:]`
are within bounds, and in `Values` so is the store `v2[i]`. -/
theorem C14_no_operation_fails (s : Sample) (v : Int) (now nowStamp : Time) :
    s.slideWindowChecked now = some (s.slideWindow now)
      ∧ s.UpdateChecked v now nowStamp = some (s.Update v now nowStamp)
      ∧ s.ClearChecked = some s.Clear
      ∧ s.SizeChecked now = some (s.Size now)
      ∧ s.CountChecked now = some (s.Count now)
      ∧ s.ValuesChecked now = some (s.Values now)
      ∧ s.SnapshotChecked now = some (s.Snapshot now) := by
  refine ⟨s.slideWindowChecked_eq now, ?_, rfl, ?_, ?_, s.ValuesChecked_eq now, ?_⟩
  · simp only [Sample.UpdateChecked, Sample.slideWindowChecked_eq, Sample.Update]
    split <;> rfl
  · simp only [Sample.SizeChecked, Sample.slideWindowChecked_eq, Sample.Size]
  · simp only [Sample.CountChecked, Sample.SizeChecked, Sample.slideWindowChecked_eq,
      Sample.Count, Sample.Size]
  · simp only [Sample.SnapshotChecked, Sample.ValuesChecked_eq, Sample.Snapshot]

/-! ## C16 -/

theorem suffixFromFirstInWindow_eq (s : Sample) (now : Time) :
    ∀ l : List sample, suffixFromFirstInWindow s.window now l = l.dropWhile (s.stale now) := by
  intro l
  induction l with
  | nil => rfl
  | cons a rest ih =>
    by_cases ha : Time.Sub now a.t ≤ s.window
    · have hst : s.stale now a = false := (s.stale_eq_false now a).mpr ha
      simp [suffixFromFirstInWindow, List.dropWhile, ha, hst]
    · have hst : s.stale now a = true := (s.stale_eq_true now a).mpr (not_le.mp ha)
      simp [suffixFromFirstInWindow, List.dropWhile, ha, hst, ih]

/-- C16: for every buffer, ordered or not, `slideWindow` leaves exactly the
suffix that starts at the first observation within the window: the buffer is
the dropped prefix, all of it out of the window, followed by what is left, whose
first observation (if any) is within the window.  The sample is unchanged when
the buffer is empty or its first observation is within the window, and the
buffer becomes empty when no observation is within the window. -/
theorem C16_slideWindow_suffix (s : Sample) (now : Time) :
    (s.slideWindow now).values = suffixFromFirstInWindow s.window now s.values
      ∧ (s.slideWindow now).values = s.values.dropWhile (s.stale now)
      ∧ s.values = s.values.takeWhile (s.stale now) ++ (s.slideWindow now).values
      ∧ (∀ o ∈ s.values.takeWhile (s.stale now), s.window < Time.Sub now o.t)
      ∧ (∀ o ∈ (s.slideWindow now).values.head?, Time.Sub now o.t ≤ s.window)
      ∧ (s.values = [] → s.slideWindow now = s)
      ∧ (∀ first ∈ s.values.head?, Time.Sub now first.t ≤ s.window → s.slideWindow now = s)
      ∧ ((∀ o ∈ s.values, s.window < Time.Sub now o.t) → (s.slideWindow now).values = []) := by
  have hv := s.slideWindow_values now
  refine ⟨?_, hv, ?_, ?_, ?_, ?_, ?_, ?_⟩
  · rw [hv, suffixFromFirstInWindow_eq]
  · rw [hv, List.takeWhile_append_dropWhile]
  · intro o ho
    exact (s.stale_eq_true now o).mp (List.mem_takeWhile_imp ho)
  · intro o ho
    rw [hv] at ho
    have := List.head?_dropWhile_not (s.stale now) s.values
    rw [Option.mem_def.mp ho] at this
    simp only [Option.all_some, Bool.not_eq_true_eq_eq_false, Bool.not_eq_eq_eq_not,
      Bool.not_true] at this
    exact (s.stale_eq_false now o).mp this
  · intro he
    rw [Sample.slideWindow_eq, he]
    cases s
    simp_all
  · intro first hf hw
    cases hvals : s.values with
    | nil => rw [hvals] at hf; simp at hf
    | cons a rest =>
      rw [hvals] at hf
      simp only [List.head?_cons, Option.mem_def, Option.some.injEq] at hf
      subst hf
      have hst : s.stale now a = false := (s.stale_eq_false now a).mpr hw
      have hd : s.values.dropWhile (s.stale now) = s.values := by
        rw [hvals]
        simp only [List.dropWhile, hst]
      rw [Sample.slideWindow_eq, hd]
  · intro hall
    rw [hv]
    apply List.dropWhile_eq_nil_iff.mpr
    intro o ho
    exact (s.stale_eq_true now o).mpr (hall o ho)

/-! ## C17 -/

theorem dropWhile_dropWhile_of_imp {α : Type} (p q : α → Bool)
    (h : ∀ x, p x = true → q x = true) :
    ∀ l : List α, (l.dropWhile p).dropWhile q = l.dropWhile q := by
  intro l
  induction l with
  | nil => rfl
  | cons a rest ih =>
    by_cases ha : p a = true
    · simp [List.dropWhile, ha, h a ha, ih]
    · simp only [Bool.not_eq_true] at ha
      simp [List.dropWhile, ha]

/-- What is stale at a reading is stale at every later reading. -/
theorem Sample.stale_mono (s : Sample) {now1 now2 : Time} (h : now1 ≤ now2) (o : sample)
    (ho : s.stale now1 o = true) : s.stale now2 o = true := by
  rw [Sample.stale_eq_true] at ho ⊢
  exact lt_of_lt_of_le ho (Time.Sub_mono_left o.t h)

theorem Sample.slideWindow_slideWindow (s : Sample) {now1 now2 : Time} (h : now1 ≤ now2) :
    (s.slideWindow now1).slideWindow now2 = s.slideWindow now2 := by
  rw [Sample.slideWindow_eq (s.slideWindow now1) now2, Sample.stale_slideWindow,
    Sample.slideWindow_eq s now1, Sample.slideWindow_eq s now2]
  simp [dropWhile_dropWhile_of_imp (s.stale now1) (s.stale now2) (s.stale_mono h)]

/-- C17: lazy eviction is unobservable.  For every buffer, ordered or not, and
readings `now1 <= now2`, evicting at `now1` and then at `now2` leaves the sample
that evicting once at `now2` leaves; so a `Size()`, `Count()`, `Values()` or
`Snapshot()` call at `now1` changes neither the result nor the sample left by a
later `Size()`, `Values()` or `Snapshot()` at `now2`. -/
theorem C17_lazy_eviction_unobservable (s : Sample) (now1 now2 : Time) (h : now1 ≤ now2) :
    (s.slideWindow now1).slideWindow now2 = s.slideWindow now2
      ∧ (∀ op : Op, readingsOf s op = [now1] →
          (step s op).Size now2 = s.Size now2
            ∧ (step s op).Values now2 = s.Values now2
            ∧ (step s op).Snapshot now2 = s.Snapshot now2)
      ∧ (s.Size now1).2.Values now2 = s.Values now2
      ∧ (s.Values now1).2.Size now2 = s.Size now2
      ∧ (s.Values now1).2.Values now2 = s.Values now2 := by
  have hs := s.slideWindow_slideWindow h
  refine ⟨hs, ?_, ?_, ?_, ?_⟩
  · intro op hop
    have hstep : (step s op).slideWindow now2 = s.slideWindow now2 := by
      cases op with
      | Update v n1 n2 =>
        simp only [readingsOf] at hop
        split at hop
        · rename_i hfull
          simp only [List.cons.injEq, and_true] at hop
          subst hop
          simp only [step, Sample.Update, Sample.slideWindow_reservoirSize]
          rw [if_pos hfull]
          exact hs
        · simp at hop
      | Clear => simp [readingsOf] at hop
      | Size n =>
        simp only [readingsOf, List.cons.injEq, and_true] at hop
        subst hop
        exact hs
      | Count n =>
        simp only [readingsOf, List.cons.injEq, and_true] at hop
        subst hop
        exact hs
      | Values n =>
        simp only [readingsOf, List.cons.injEq, and_true] at hop
        subst hop
        exact hs
      | Snapshot n =>
        simp only [readingsOf, List.cons.injEq, and_true] at hop
        subst hop
        exact hs
    simp only [Sample.Size, Sample.Values, Sample.Snapshot, hstep, and_self]
  · simp only [Sample.Size, Sample.Values, hs]
  · simp only [Sample.Size, Sample.Values, hs]
  · simp only [Sample.Values, hs]

theorem C17_lazy_eviction_unobservable_witness :
    (1500000000 : Time) ≤ 2500000000
      ∧ (testBuffer.Size 1500000000).2.Values 2500000000 = testBuffer.Values 2500000000 :=
  ⟨by decide,
    (C17_lazy_eviction_unobservable testBuffer 1500000000 2500000000 (by decide)).2.2.1⟩

/-! ## C18 -/

/-- Under readings that never decrease, up to and including the reading of the
read, everything a read leaves in the buffer is within the window. -/
theorem run_fresh_of_monotone (c : Int) (w : Duration) (ops : List Op) (now : Time)
    (h : (trace (NewSample c w) ops ++ [now]).Pairwise (fun a b => a ≤ b)) :
    ∀ o ∈ ((run (NewSample c w) ops).slideWindow now).values, Time.Sub now o.t ≤ w := by
  have hc : Chronological (run (NewSample c w) ops).values :=
    run_chronological ops (NewSample c w) (by simp [NewSample, Chronological])
      (by simp [NewSample]) (List.pairwise_append.mp h).1
  intro o ho
  rw [Sample.slideWindow_values, dropWhile_stale_eq_filter _ now _ hc, List.mem_filter] at ho
  simpa using ho.2

/-- C18: eviction relies on a clock that never steps backwards.  There is a
sequence of `Update` calls on a sample created by `NewSample`, with a clock
reading earlier than a previous one, after which a read keeps, and `Values()`
returns the value of, an observation whose age `now.Sub(t)` is strictly greater
than the window: with reservoir size 2 and a window of one second, value 1
stored at second 10, value 2 stored at second 5, and a read at second 10.5
returning `[1, 2]`.  With readings that never decrease this cannot happen. -/
theorem C18_backwards_clock_keeps_stale :
    (∃ (c : Int) (w : Duration) (b : List (Int × Time × Time)) (now : Time) (o : sample),
        ¬ (trace (NewSample c w) (burstOps b)).Pairwise (fun x y => x ≤ y)
          ∧ o ∈ ((run (NewSample c w) (burstOps b)).slideWindow now).values
          ∧ o.v ∈ ((run (NewSample c w) (burstOps b)).Values now).1
          ∧ w < Time.Sub now o.t)
      ∧ trace (NewSample 2 1000000000) backwardsOps
          = [10000000000, 10000000000, 5000000000, 5000000000]
      ∧ (run (NewSample 2 1000000000) backwardsOps).values
          = [⟨1, 10000000000⟩, ⟨2, 5000000000⟩]
      ∧ ((run (NewSample 2 1000000000) backwardsOps).Values 10500000000).1 = [1, 2]
      ∧ Time.Sub 10500000000 5000000000 = 5500000000
      ∧ ∀ (c : Int) (w : Duration) (ops : List Op) (now : Time),
          (trace (NewSample c w) ops ++ [now]).Pairwise (fun x y => x ≤ y) →
          ∀ o ∈ ((run (NewSample c w) ops).slideWindow now).values,
            Time.Sub now o.t ≤ w := by
  refine ⟨⟨2, 1000000000,
      [(1, 10000000000, 10000000000), (2, 5000000000, 5000000000)], 10500000000,
      ⟨2, 5000000000⟩, by decide, by decide, by decide, by decide⟩,
    by decide, by decide, by decide, by decide, run_fresh_of_monotone⟩

/-! ## C19 -/

/-- With a non-positive reservoir size an empty buffer stays empty. -/
theorem step_empty (s : Sample) (op : Op) (hr : s.reservoirSize ≤ 0) (hv : s.values = []) :
    step s op = s := by
  have hs : ∀ now, s.slideWindow now = s := by
    intro now
    apply s.slideWindow_fresh
    intro o ho
    rw [hv] at ho
    simp at ho
  have hc : s.Clear = s := by
    cases s
    simp_all [Sample.Clear]
  cases op with
  | Update v n1 n2 =>
    simp only [step, Sample.Update, hs]
    rw [if_pos]
    rw [hv]
    simpa using hr
  | Clear => exact hc
  | Size now => simp only [step, Sample.Size, hs]
  | Count now => simp only [step, Sample.Count, Sample.Size, hs]
  | Values now => simp only [step, Sample.Values, hs]
  | Snapshot now => simp only [step, Sample.Snapshot, Sample.Values, hs]

theorem run_empty (ops : List Op) :
    ∀ s : Sample, s.reservoirSize ≤ 0 → s.values = [] → run s ops = s := by
  induction ops with
  | nil => intro s _ _; rfl
  | cons op ops ih =>
    intro s hr hv
    rw [run_cons, step_empty s op hr hv]
    exact ih s hr hv

/-- C19: a sample created by `NewSample` with `reservoirSize <= 0` is always
empty: after any sequence of calls under any clock readings it is still the
sample `NewSample` returned, every further `Update` is dropped, `Size()`
returns 0 and `Values()` returns the empty list. -/
theorem C19_nonpositive_reservoir_empty (c : Int) (w : Duration) (hc : c ≤ 0)
    (ops : List Op) (now : Time) :
    run (NewSample c w) ops = NewSample c w
      ∧ (run (NewSample c w) ops).values = []
      ∧ (∀ (v : Int) (n1 n2 : Time),
          (run (NewSample c w) ops).Update v n1 n2 = run (NewSample c w) ops)
      ∧ ((run (NewSample c w) ops).Size now).1 = 0
      ∧ ((run (NewSample c w) ops).Values now).1 = [] := by
  have hrun : run (NewSample c w) ops = NewSample c w := run_empty ops (NewSample c w) hc rfl
  have hs : (NewSample c w).slideWindow now = NewSample c w := by
    apply Sample.slideWindow_fresh
    intro o ho
    simp [NewSample] at ho
  refine ⟨hrun, by rw [hrun]; rfl, ?_, ?_, ?_⟩
  · intro v n1 n2
    rw [hrun]
    exact step_empty (NewSample c w) (.Update v n1 n2) hc rfl
  · rw [hrun]
    simp only [Sample.Size, hs]
    rfl
  · rw [hrun]
    simp only [Sample.Values, hs]
    rfl

theorem C19_nonpositive_reservoir_empty_witness :
    (0 : Int) ≤ 0
      ∧ (run (NewSample 0 1000000000) [.Update 1 0 0, .Size 0, .Update 2 1 1]
          = NewSample 0 1000000000
        ∧ (run (NewSample 0 1000000000) [.Update 1 0 0, .Size 0, .Update 2 1 1]).values = []
        ∧ (∀ (v : Int) (n1 n2 : Time),
            (run (NewSample 0 1000000000) [.Update 1 0 0, .Size 0, .Update 2 1 1]).Update
                v n1 n2
              = run (NewSample 0 1000000000) [.Update 1 0 0, .Size 0, .Update 2 1 1])
        ∧ ((run (NewSample 0 1000000000) [.Update 1 0 0, .Size 0, .Update 2 1 1]).Size 1).1
            = 0
        ∧ ((run (NewSample 0 1000000000) [.Update 1 0 0, .Size 0, .Update 2 1 1]).Values
            1).1 = []) :=
  ⟨by decide,
    C19_nonpositive_reservoir_empty 0 1000000000 (by decide)
      [.Update 1 0 0, .Size 0, .Update 2 1 1] 1⟩

/-! ## C20 -/

/-- With a negative window, a reading not earlier than any stored timestamp
finds every observation stale. -/
theorem Sample.slideWindow_negative_window (s : Sample) (now : Time) (hw : s.window < 0)
    (hnow : ∀ o ∈ s.values, o.t ≤ now) : (s.slideWindow now).values = [] := by
  rw [Sample.slideWindow_values]
  apply List.dropWhile_eq_nil_iff.mpr
  intro o ho
  exact (s.stale_eq_true now o).mpr (lt_of_lt_of_le hw (Time.Sub_nonneg (hnow o ho)))

/-- C20: a sample with a negative window reports nothing.  When `window < 0`
and the reading `now` is not earlier than any stored timestamp, `slideWindow`
empties the buffer, `Size()` returns 0 and `Values()` returns the empty list;
and a value stored by an `Update` stamped no later than `now` is not returned
by the read at `now` either. -/
theorem C20_negative_window_empty (s : Sample) (now : Time) (hw : s.window < 0)
    (hnow : ∀ o ∈ s.values, o.t ≤ now) :
    (s.slideWindow now).values = []
      ∧ (s.Size now).1 = 0
      ∧ (s.Values now).1 = []
      ∧ ∀ (v : Int) (nowSlide nowStamp : Time), nowStamp ≤ now →
          ((s.Update v nowSlide nowStamp).Values now).1 = []
            ∧ ((s.Update v nowSlide nowStamp).Size now).1 = 0 := by
  have h := s.slideWindow_negative_window now hw hnow
  refine ⟨h, by simp [Sample.Size, h], by simp [Sample.Values, h], ?_⟩
  intro v n1 n2 hn2
  have hu : ((s.Update v n1 n2).slideWindow now).values = [] := by
    apply Sample.slideWindow_negative_window
    · simpa using hw
    · intro o ho
      rw [Sample.Update_values] at ho
      split at ho
      · exact hnow o ((s.slideWindow_sublist n1).subset ho)
      · rcases List.mem_append.mp ho with h1 | h1
        · exact hnow o ((s.slideWindow_sublist n1).subset h1)
        · rw [List.mem_singleton] at h1
          rw [h1]
          exact hn2
  simp [Sample.Values, Sample.Size, hu]

theorem C20_negative_window_empty_witness :
    (Sample.mk [⟨1, 0⟩, ⟨2, 5⟩] 3 (-1)).window < 0
      ∧ (∀ o ∈ (Sample.mk [⟨1, 0⟩, ⟨2, 5⟩] 3 (-1)).values, o.t ≤ 5)
      ∧ ((Sample.mk [⟨1, 0⟩, ⟨2, 5⟩] 3 (-1)).Values 5).1 = []
      ∧ (((Sample.mk [⟨1, 0⟩, ⟨2, 5⟩] 3 (-1)).Update 7 5 5).Values 5).1 = [] :=
  ⟨by decide, by decide,
    (C20_negative_window_empty (Sample.mk [⟨1, 0⟩, ⟨2, 5⟩] 3 (-1)) 5 (by decide)
      (by decide)).2.2.1,
    ((C20_negative_window_empty (Sample.mk [⟨1, 0⟩, ⟨2, 5⟩] 3 (-1)) 5 (by decide)
      (by decide)).2.2.2 7 5 5 (by decide)).1⟩

end slidingwindow
